import Mathlib

/-!
# jake: social-media handle crawler (`jake.go`)

A shallow embedding of `jake.go` and proofs about it.

* Strings are Lean `String`s; the regular-expression library is modelled by a small
  backtracking matcher with Go's leftmost-first semantics over the constructs the six
  patterns use.
* The network is a function from the history of requested URLs and the requested URL to
  an answer (`none` is a transport error).  Every `http.Get` is recorded in a request log,
  tagged with the place in the program that issued it.
* Go's unspecified `range` order over a map is a parameter of the run.
* The output file is the string of bytes written so far; writes append and do not fail.
* Lines printed to standard output are not modelled.
-/

namespace Jake

/-! ## Data model -/

/-- Go `type HandleResult struct`. -/
structure HandleResult where
  Platform : String
  Handle : String
  Hijackable : Bool
deriving DecidableEq, Repr

/-- Go `type URLResult struct`. A nil `Handles` slice is the empty list. -/
structure URLResult where
  URL : String
  Handles : List HandleResult
deriving DecidableEq, Repr

/-- Go `var potentialPages`. -/
def potentialPages : List String :=
  ["contact", "contact-us", "about", "about-us", "team", "support", "help", "get-in-touch",
   "meet-the-team", "our-team", "company", "who-we-are", "info", "legal", "press", "reach-us"]

/-! ## Regular expressions -/

/-- The regular-expression constructs that occur in `regexPatterns`. -/
inductive Re where
  /-- a literal text -/
  | lit (s : String)
  /-- concatenation -/
  | seq (a b : Re)
  /-- alternation `a|b`, the left alternative preferred -/
  | alt (a b : Re)
  /-- greedy option `a?` -/
  | opt (a : Re)
  /-- greedy repetition `[...]+` of a character class -/
  | plus (p : Char → Bool)
  /-- the capturing group `( ... )` -/
  | group (a : Re)

/-- Concatenation of a list of expressions. -/
def Re.cat : List Re → Re
  | [] => Re.lit ""
  | [r] => r
  | r :: rs => Re.seq r (Re.cat rs)

/-- One state of the backtracking search: the input left, the number of characters
consumed, and the text of capturing group 1 when it has matched. -/
structure Thread where
  rest : List Char
  pos : Nat
  cap : Option (List Char)
deriving DecidableEq, Repr

/-- Advance a thread by `k` characters. -/
def Thread.advance (t : Thread) (k : Nat) : Thread :=
  { rest := t.rest.drop k, pos := t.pos + k, cap := t.cap }

/-- The threads after `1, ..., k` characters, longest first. -/
def longestFirst (t : Thread) : Nat → List Thread
  | 0 => []
  | k + 1 => t.advance (k + 1) :: longestFirst t k

/-- Every way `r` matches at the head of a thread, in the order a backtracking search
tries them. -/
def Re.run : Re → Thread → List Thread
  | Re.lit s, t => if s.toList.isPrefixOf t.rest then [t.advance s.length] else []
  | Re.seq a b, t => (Re.run a t).flatMap (fun u => Re.run b u)
  | Re.alt a b, t => Re.run a t ++ Re.run b t
  | Re.opt a, t => Re.run a t ++ [t]
  | Re.plus p, t => longestFirst t (t.rest.takeWhile p).length
  | Re.group a, t =>
      (Re.run a t).map (fun u => { u with cap := some (t.rest.take (u.pos - t.pos)) })

/-- The leftmost-first match of `r` at the head of `s`: its length and the text of
group 1. -/
def matchPrefix (r : Re) (s : List Char) : Option (Nat × String) :=
  match Re.run r { rest := s, pos := 0, cap := none } with
  | [] => none
  | t :: _ => some (t.pos, String.mk (t.cap.getD []))

/-- The scan of `FindAllStringSubmatch(content, -1)`, returning `m[1]` of every match:
`skip` characters of the last match are still to be passed over. A match is searched at
every position outside the previous match, and the scan resumes where the match ends (one
character further on for an empty match). -/
def findAllFrom (r : Re) : Nat → List Char → List String
  | _, [] => []
  | skip + 1, _ :: cs => findAllFrom r skip cs
  | 0, c :: cs =>
      match matchPrefix r (c :: cs) with
      | some (n, handle) => handle :: findAllFrom r (n - 1) cs
      | none => findAllFrom r 0 cs

/-- Group 1 of every match of `regex.FindAllStringSubmatch(content, -1)`. -/
def findAllStringSubmatch (r : Re) (content : String) : List String :=
  findAllFrom r 0 content.toList

/-- The character class `[a-zA-Z0-9_\-]`. -/
def handleChar (c : Char) : Bool :=
  ('a' ≤ c && c ≤ 'z') || ('A' ≤ c && c ≤ 'Z') || ('0' ≤ c && c ≤ '9') || c == '_' || c == '-'

/-- The common head `https?://(?:www\.)?` of the six patterns. -/
def urlHead : List Re :=
  [Re.lit "http", Re.opt (Re.lit "s"), Re.lit "://", Re.opt (Re.lit "www.")]

/-- The common tail `([a-zA-Z0-9_\-]+)` of the six patterns. -/
def handleGroup : Re := Re.group (Re.plus handleChar)

/-- Go `var regexPatterns`: the entries of the map, in the order they are written. -/
def regexPatterns : List (String × Re) :=
  [("twitter", Re.cat (urlHead ++
      [Re.alt (Re.lit "x.com") (Re.lit "twitter.com"), Re.lit "/", handleGroup])),
   ("linkedin", Re.cat (urlHead ++ [Re.lit "linkedin.com/in/", handleGroup])),
   ("youtube", Re.cat (urlHead ++
      [Re.lit "youtube.com/",
       Re.alt (Re.lit "c") (Re.alt (Re.lit "channel") (Re.lit "user")), Re.lit "/",
       handleGroup])),
   ("facebook", Re.cat (urlHead ++ [Re.lit "facebook.com/", handleGroup])),
   ("instagram", Re.cat (urlHead ++ [Re.lit "instagram.com/", handleGroup])),
   ("tiktok", Re.cat (urlHead ++ [Re.lit "tiktok.com/@", handleGroup]))]

/-! ## The network and the request log -/

/-- What `http.Get` hands back when it returns no error: `resp.StatusCode` and the bytes
`ioutil.ReadAll(resp.Body)` yields. -/
structure Response where
  StatusCode : Int
  Body : String
deriving DecidableEq, Repr

/-- The place in the program that issued a request. -/
inductive Purpose where
  | mainPage
  | subPage
  | probe
deriving DecidableEq, Repr

/-- One `http.Get` call. -/
structure Request where
  purpose : Purpose
  url : String
deriving DecidableEq, Repr

/-- The requests issued so far, oldest first. -/
abbrev Log := List Request

/-- The URLs requested so far. -/
def Log.urls (log : Log) : List String := log.map Request.url

/-- Everything outside the program that a run depends on. -/
structure Env where
  /-- the answer to a GET, given the URLs requested before it; `none` is an error -/
  net : List String → String → Option Response
  /-- the order in which `range regexPatterns` visits the entries at this point -/
  rangeOrder : Log → List (String × Re)
  /-- the order in which `range uniqueHandles` visits the entries at this point -/
  arrange : Log → List (String × HandleResult) → List (String × HandleResult)
  /-- `url.Parse`: the `Scheme` and the `Host` of a URL -/
  parse : String → String × String
  /-- `json.MarshalIndent(partialResult, "", "  ")` -/
  marshal : URLResult → String

/-- Go `http.Get(url)`: the answer, and the log with the request added. -/
def httpGet (env : Env) (log : Log) (purpose : Purpose) (url : String) :
    Option Response × Log :=
  (env.net log.urls url, log ++ [{ purpose := purpose, url := url }])

/-! ## The program -/

/-- Go `func checkTwitterHandleAvailability`. -/
def checkTwitterHandleAvailability (env : Env) (handle : String) (log : Log) : Bool × Log :=
  let url := "https://x.com/" ++ handle
  match httpGet env log Purpose.probe url with
  | (some resp, log1) => if resp.StatusCode == 404 then (true, log1) else (false, log1)
  | (none, log1) => (false, log1)

/-- The inner loop `for _, m := range matches` of `findHandles`, over `m[1]` of every
match. -/
def appendMatches (env : Env) (platform : String) :
    List String → List HandleResult × Log → List HandleResult × Log
  | [], st => st
  | handle :: ms, (found, log) =>
      if platform == "twitter" then
        let r := checkTwitterHandleAvailability env handle log
        appendMatches env platform ms
          (found ++ [{ Platform := platform, Handle := handle, Hijackable := r.1 }], r.2)
      else
        appendMatches env platform ms
          (found ++ [{ Platform := platform, Handle := handle, Hijackable := false }], log)

/-- The outer loop `for platform, regex := range regexPatterns` of `findHandles`, over the
entries in the order the map hands them out. -/
def rangePatterns (env : Env) (content : String) :
    List (String × Re) → List HandleResult × Log → List HandleResult × Log
  | [], st => st
  | (platform, regex) :: rest, st =>
      rangePatterns env content rest
        (appendMatches env platform (findAllStringSubmatch regex content) st)

/-- Go `func findHandles`. -/
def findHandles (env : Env) (content : String) (log : Log) : List HandleResult × Log :=
  rangePatterns env content (env.rangeOrder log) ([], log)

/-- The loop `for _, page := range potentialPages` of `fetchAndAnalyze`. -/
def fetchPages (env : Env) (baseUrl : String) :
    List String → List HandleResult × Log → List HandleResult × Log
  | [], st => st
  | page :: rest, (handles, log) =>
      let pageUrl := baseUrl ++ "/" ++ page
      match httpGet env log Purpose.subPage pageUrl with
      | (some pResp, log1) =>
          if pResp.StatusCode == 200 then
            let r := findHandles env pResp.Body log1
            fetchPages env baseUrl rest (handles ++ r.1, r.2)
          else fetchPages env baseUrl rest (handles, log1)
      | (none, log1) => fetchPages env baseUrl rest (handles, log1)

/-- Lines 85-101 of `fetchAndAnalyze`: the matches of the main page followed by the
matches of the sub-pages that answered 200. -/
def gatherHandles (env : Env) (urlStr content : String) (log : Log) :
    List HandleResult × Log :=
  let handles := findHandles env content log
  let parsedUrl := env.parse urlStr
  let baseUrl := parsedUrl.1 ++ "://" ++ parsedUrl.2
  fetchPages env baseUrl potentialPages handles

/-- Go map assignment `m[k] = v` on the entries of a map. -/
def mapAssign (m : List (String × HandleResult)) (k : String) (v : HandleResult) :
    List (String × HandleResult) :=
  match m with
  | [] => [(k, v)]
  | (k1, v1) :: rest => if k1 == k then (k, v) :: rest else (k1, v1) :: mapAssign rest k v

/-- The map key `h.Platform+":"+h.Handle` of line 105. -/
def dedupKey (h : HandleResult) : String := h.Platform ++ ":" ++ h.Handle

/-- Lines 103-106 of `fetchAndAnalyze`: the map `uniqueHandles` after the loop. -/
def uniqueHandles (handles : List HandleResult) : List (String × HandleResult) :=
  handles.foldl (fun m h => mapAssign m (dedupKey h) h) []

/-- Lines 108-117 of `fetchAndAnalyze`: `finalHandles` after the loop over the map. -/
def finalHandles (env : Env) (log : Log) (handles : List HandleResult) : List HandleResult :=
  (env.arrange log (uniqueHandles handles)).map Prod.snd

/-- Lines 74-119 of `fetchAndAnalyze`: `partialResult`, or `none` when the function
returns at line 79. -/
def analyze (env : Env) (urlStr : String) (log : Log) : Option URLResult × Log :=
  match httpGet env log Purpose.mainPage urlStr with
  | (none, log1) => (none, log1)
  | (some resp, log1) =>
      if resp.StatusCode != 200 then (none, log1)
      else
        let r := gatherHandles env urlStr resp.Body log1
        (some { URL := urlStr, Handles := finalHandles env r.2 r.1 }, r.2)

/-- Go `func fetchAndAnalyze`, on the bytes of the output file and the request log: lines
74-119, then the two writes of lines 120-124. -/
def fetchAndAnalyze (env : Env) (urlStr : String) (sink : String) (log : Log) :
    String × Log :=
  match analyze env urlStr log with
  | (none, log1) => (sink, log1)
  | (some partialResult, log1) => (sink ++ env.marshal partialResult ++ ",\n", log1)

/-- Go `unicode.IsSpace`, which `strings.TrimSpace` cuts by. -/
def isSpace (c : Char) : Bool :=
  c == '\t' || c == '\n' || c.toNat == 0x0B || c.toNat == 0x0C || c == '\r' || c == ' ' ||
  c.toNat == 0x85 || c.toNat == 0xA0 || c.toNat == 0x1680 ||
  (0x2000 ≤ c.toNat && c.toNat ≤ 0x200A) || c.toNat == 0x2028 || c.toNat == 0x2029 ||
  c.toNat == 0x202F || c.toNat == 0x205F || c.toNat == 0x3000

/-- Go `strings.TrimSpace`. -/
def trimSpace (s : String) : String :=
  String.mk ((s.toList.dropWhile isSpace).reverse.dropWhile isSpace).reverse

/-- Lines 154-161 of `main`: the loop over the lines the scanner yields, with the URLs
collected so far. -/
def scanUrls : List String → List String → List String
  | [], urls => urls
  | text :: rest, urls =>
      let line := trimSpace text
      if line != "" then scanUrls rest (urls ++ [line]) else scanUrls rest urls

/-- The body of the goroutine started for the URL `u` at index `idx` (lines 180-185), on
the bytes of the output file and the request log. `n` is `len(urls)`. -/
def unitBody (env : Env) (n : Nat) (u : String) (idx : Nat) (st : String × Log) :
    String × Log :=
  let r := fetchAndAnalyze env u st.1 st.2
  (if (idx : Int) == (n : Int) - 1 then r.1 ++ "{}\n]" else r.1, r.2)

/-- The loop `for i, u := range urls` of `main` when the units of work run one at a time
in input order: the body of the goroutine for index `idx`, then the rest. -/
def runUnits (env : Env) (n : Nat) : List String → Nat → String × Log → String × Log
  | [], _, st => st
  | u :: rest, idx, st => runUnits env n rest (idx + 1) (unitBody env n u idx st)

/-- Lines 169-189 of `main` with the units of work run one at a time in input order: the
bytes of the output file and the request log at the end. -/
def mainSequential (env : Env) (urls : List String) : String × Log :=
  runUnits env urls.length urls 0 ("[\n", [])

/-! ## The scheduler of `main` -/

/-- Where the loop of `main` stands for the index `next`. -/
inductive MainPc where
  /-- before `sem <- struct{}{}` (or, past the last index, before `wg.Wait()`) -/
  | acquire
  /-- holding the slot, before the `go` statement -/
  | spawn
deriving DecidableEq, Repr

/-- The state of the scheduler: the loop index, the place in the loop body, the number of
values in the channel `sem`, the units of work that are Running and Done, and the indices
started so far in the order they were started. -/
structure Sched where
  next : Nat
  pc : MainPc
  sem : Nat
  running : List Nat
  done : List Nat
  started : List Nat
deriving DecidableEq, Repr

/-- The state at line 175, before the loop. -/
def Sched.init : Sched :=
  { next := 0, pc := MainPc.acquire, sem := 0, running := [], done := [], started := [] }

/-- One atomic action of the scheduler. -/
inductive Move where
  /-- `sem <- struct{}{}` in the loop of `main` -/
  | acquire
  /-- the `go` statement: the unit of work for the current index starts -/
  | start
  /-- the unit of work `idx` ends: its deferred `<-sem` -/
  | finish (idx : Nat)
deriving DecidableEq, Repr

/-- The effect of a move with `K` the capacity of `sem` and `n = len(urls)`; `none` when
the move is not enabled (a send on a full channel and a receive on an empty one block). -/
def step (K n : Nat) (s : Sched) : Move → Option Sched
  | Move.acquire =>
      if s.pc = MainPc.acquire ∧ s.next < n ∧ s.sem < K then
        some { s with sem := s.sem + 1, pc := MainPc.spawn }
      else none
  | Move.start =>
      if s.pc = MainPc.spawn then
        some { s with running := s.running ++ [s.next], started := s.started ++ [s.next],
                      next := s.next + 1, pc := MainPc.acquire }
      else none
  | Move.finish idx =>
      if idx ∈ s.running ∧ 0 < s.sem then
        some { s with running := s.running.erase idx, done := s.done ++ [idx],
                      sem := s.sem - 1 }
      else none

/-- Run a sequence of moves. -/
def exec (K n : Nat) : List Move → Sched → Option Sched
  | [], s => some s
  | m :: ms, s =>
      match step K n s m with
      | some s1 => exec K n ms s1
      | none => none

/-- A bound on the number of moves still possible. -/
def Sched.fuel (n : Nat) (s : Sched) : Nat :=
  4 * (n - s.next) + s.running.length + (if s.pc = MainPc.acquire then 2 else 0)

/-- The state of `main` from line 169 on: the scheduler, the bytes of the output file and
the request log. -/
structure MainState where
  sched : Sched
  sink : String
  log : Log
deriving DecidableEq, Repr

/-- The state after line 169 has written the opening bracket. -/
def MainState.init : MainState := { sched := Sched.init, sink := "[\n", log := [] }

/-- The effect of a move on the state of `main`. A unit of work is taken to act on the
output file and the network in one piece, when it ends; this is exact when no other unit
runs meanwhile, as with one slot. -/
def stepMain (env : Env) (K : Nat) (urls : List String) (s : MainState) (mv : Move) :
    Option MainState :=
  match step K urls.length s.sched mv with
  | none => none
  | some sched1 =>
      match mv with
      | Move.finish idx =>
          match urls[idx]? with
          | some u =>
              some { sched := sched1,
                     sink := (unitBody env urls.length u idx (s.sink, s.log)).1,
                     log := (unitBody env urls.length u idx (s.sink, s.log)).2 }
          | none => none
      | _ => some { sched := sched1, sink := s.sink, log := s.log }

/-- Run a sequence of moves of `main`. -/
def execMain (env : Env) (K : Nat) (urls : List String) :
    List Move → MainState → Option MainState
  | [], s => some s
  | m :: ms, s =>
      match stepMain env K urls s m with
      | some s1 => execMain env K urls ms s1
      | none => none

/-- What holds of every state the scheduler reaches: the channel holds one value for each
Running unit (and one more while `main` stands before the `go` statement), never more
than its capacity; the indices below the loop index have been started, each once and in
order; each of them is Running or Done. -/
structure Sched.Inv (K n : Nat) (s : Sched) : Prop where
  sem_eq : s.sem = s.running.length + (if s.pc = MainPc.spawn then 1 else 0)
  sem_le : s.sem ≤ K
  started_eq : s.started = List.range s.next
  next_le : s.next ≤ n
  next_lt : s.pc = MainPc.spawn → s.next < n
  perm : (s.running ++ s.done).Perm s.started

/-! ## Notions used in the statements -/

/-- The identity key of a match. -/
def HandleResult.pair (h : HandleResult) : String × String := (h.Platform, h.Handle)

/-- The number of entries with the same platform and handle as `h`. -/
def countPair (h : HandleResult) (l : List HandleResult) : Nat :=
  l.countP (fun e => decide (e.Platform = h.Platform ∧ e.Handle = h.Handle))

/-- The entries of a platform. -/
def ofPlatform (p : String) (l : List HandleResult) : List HandleResult :=
  l.filter (fun h => h.Platform == p)

/-- The entries of every platform but twitter. -/
def notTwitter (l : List HandleResult) : List HandleResult :=
  l.filter (fun h => h.Platform != "twitter")

/-- The request the availability probe issues for a handle. -/
def probeRequest (handle : String) : Request :=
  { purpose := Purpose.probe, url := "https://x.com/" ++ handle }

/-- The probe requests a list of matches calls for: one for every twitter entry. -/
def probesFor (l : List HandleResult) : List Request :=
  (ofPlatform "twitter" l).map (fun h => probeRequest h.Handle)

/-- The matches a scan of `content` yields for the entries `order` of the pattern map,
as (platform, handle) pairs. -/
def scanPairs (content : String) (order : List (String × Re)) : List (String × String) :=
  order.flatMap (fun e => (findAllStringSubmatch e.2 content).map (fun h => (e.1, h)))

/-- The URLs requested for a purpose, oldest first. -/
def requested (purpose : Purpose) (log : Log) : List String :=
  (log.filter (fun r => r.purpose == purpose)).map Request.url

/-- The slice `handles` at line 102 of `fetchAndAnalyze`: the matches of the main page
followed by the matches of the sub-pages; empty when the function returns at line 79. -/
def accumulated (env : Env) (urlStr : String) (log : Log) : List HandleResult :=
  match httpGet env log Purpose.mainPage urlStr with
  | (none, _) => []
  | (some resp, log1) =>
      if resp.StatusCode != 200 then [] else (gatherHandles env urlStr resp.Body log1).1

/-- The `Handles` of the record `fetchAndAnalyze` writes; empty when it writes none. -/
def resultHandles (env : Env) (urlStr : String) (log : Log) : List HandleResult :=
  match (analyze env urlStr log).1 with
  | some res => res.Handles
  | none => []

/-- The main-page fetch of `urlStr` at this point returns no error and status 200. -/
def mainFetchOk (env : Env) (urlStr : String) (log : Log) : Bool :=
  match env.net log.urls urlStr with
  | some resp => resp.StatusCode == 200
  | none => false

/-- Both `range` loops over maps visit every entry of the map exactly once. -/
structure Env.Lawful (env : Env) : Prop where
  rangeOrder_perm : ∀ log, (env.rangeOrder log).Perm regexPatterns
  arrange_perm : ∀ log m, (env.arrange log m).Perm m

/-- The handles of the occurrences of the URL shape `r` in `s`: one for every position at
which `r` matches. -/
def occurrenceHandles (r : Re) : List Char → List String
  | [] => []
  | c :: cs =>
      match matchPrefix r (c :: cs) with
      | some (_, handle) => handle :: occurrenceHandles r cs
      | none => occurrenceHandles r cs

/-- No occurrence of `r` starts at one of the first `k` positions of `s`. -/
def noneWithin (r : Re) : Nat → List Char → Bool
  | 0, _ => true
  | _, [] => true
  | k + 1, c :: cs => (matchPrefix r (c :: cs)).isNone && noneWithin r k cs

/-- No occurrence of `r` in `s` starts inside the text of another one. -/
def nonOverlapping (r : Re) : List Char → Bool
  | [] => true
  | c :: cs =>
      (match matchPrefix r (c :: cs) with
       | some (n, _) => noneWithin r (n - 1) cs
       | none => true) && nonOverlapping r cs

/-- What the output file holds after `"[\n"` and before the closing marker when the URLs
are processed one at a time in input order: for each URL whose main-page fetch succeeds,
its record followed by `",\n"`. -/
def expectedRecords (env : Env) : List String → Log → String
  | [], _ => ""
  | u :: rest, log =>
      (match (analyze env u log).1 with
       | some res => env.marshal res ++ ",\n"
       | none => "") ++ expectedRecords env rest (analyze env u log).2

/-- Scheme and host of a URL written `scheme://host/path`. -/
def splitUrl (u : String) : String × String :=
  (String.mk (u.toList.takeWhile (fun c => c != ':')),
   String.mk (((u.toList.dropWhile (fun c => c != ':')).drop 3).takeWhile (fun c => c != '/')))

/-- A run for examples: `pages` lists the URLs that answer 200 with their bodies, every
other request answers `other`; maps are visited in the order the entries were added;
URLs are written `scheme://host/path`; the record is marshalled to a fixed shape. -/
def exampleEnv (pages : List (String × String)) (other : Option Response) : Env where
  net := fun _ url =>
    match pages.lookup url with
    | some body => some { StatusCode := 200, Body := body }
    | none => other
  rangeOrder := fun _ => regexPatterns
  arrange := fun _ m => m
  parse := splitUrl
  marshal := fun res =>
    "\x7b\"url\": \"" ++ res.URL ++ "\", \"handles\": [" ++
      ", ".intercalate (res.Handles.map (fun h =>
        h.Platform ++ "/" ++ h.Handle ++ "/" ++ (if h.Hijackable then "true" else "false")))
      ++ "]\x7d"

/-! ## Theorems -/

theorem probesFor_append (a b : List HandleResult) :
    probesFor (a ++ b) = probesFor a ++ probesFor b := by
  simp [probesFor, ofPlatform]

theorem appendMatches_spec (env : Env) (p : String) (ms : List String)
    (st : List HandleResult × Log) :
    ∃ new, appendMatches env p ms st = (st.1 ++ new, st.2 ++ probesFor new) ∧
      new.map HandleResult.pair = ms.map (fun h => (p, h)) ∧
      ∀ h ∈ new, h.Platform ≠ "twitter" → h.Hijackable = false := by
  induction ms generalizing st with
  | nil => exact ⟨[], by simp [appendMatches, probesFor, ofPlatform]⟩
  | cons m ms ih =>
    obtain ⟨found, log⟩ := st
    by_cases hp : p = "twitter"
    · subst hp
      obtain ⟨new, h1, h2, h3⟩ := ih
        (found ++ [{ Platform := "twitter", Handle := m,
                     Hijackable := (checkTwitterHandleAvailability env m log).1 }],
         (checkTwitterHandleAvailability env m log).2)
      refine ⟨{ Platform := "twitter", Handle := m,
                Hijackable := (checkTwitterHandleAvailability env m log).1 } :: new, ?_, ?_, ?_⟩
      · simp only [appendMatches, beq_self_eq_true, if_true]
        rw [h1]
        have hl : (checkTwitterHandleAvailability env m log).2 = log ++ [probeRequest m] := by
          unfold checkTwitterHandleAvailability httpGet probeRequest
          cases h : env.net log.urls ("https://x.com/" ++ m) with
          | none => simp [h]
          | some resp => by_cases hs : resp.StatusCode = 404 <;> simp [h, hs]
        simp [hl, probesFor, ofPlatform]
      · simp [h2, HandleResult.pair]
      · intro h hh hne
        rcases List.mem_cons.1 hh with rfl | hh
        · exact absurd rfl hne
        · exact h3 h hh hne
    · obtain ⟨new, h1, h2, h3⟩ := ih
        (found ++ [{ Platform := p, Handle := m, Hijackable := false }], log)
      refine ⟨{ Platform := p, Handle := m, Hijackable := false } :: new, ?_, ?_, ?_⟩
      · simp only [appendMatches, beq_iff_eq, hp, if_false]
        rw [h1]
        simp [probesFor, ofPlatform, hp]
      · simp [h2, HandleResult.pair]
      · intro h hh hne
        rcases List.mem_cons.1 hh with rfl | hh
        · rfl
        · exact h3 h hh hne

theorem rangePatterns_spec (env : Env) (content : String) (order : List (String × Re))
    (st : List HandleResult × Log) :
    ∃ new, rangePatterns env content order st = (st.1 ++ new, st.2 ++ probesFor new) ∧
      new.map HandleResult.pair = scanPairs content order ∧
      ∀ h ∈ new, h.Platform ≠ "twitter" → h.Hijackable = false := by
  induction order generalizing st with
  | nil => exact ⟨[], by simp [rangePatterns, probesFor, ofPlatform, scanPairs]⟩
  | cons e rest ih =>
    obtain ⟨p, re⟩ := e
    obtain ⟨new1, a1, a2, a3⟩ := appendMatches_spec env p (findAllStringSubmatch re content) st
    obtain ⟨new2, b1, b2, b3⟩ := ih (st.1 ++ new1, st.2 ++ probesFor new1)
    refine ⟨new1 ++ new2, ?_, ?_, ?_⟩
    · simp only [rangePatterns]
      rw [a1, b1]
      simp [probesFor_append]
    · simp [scanPairs, a2, b2] 
    · intro h hh hne
      rcases List.mem_append.1 hh with hh | hh
      · exact a3 h hh hne
      · exact b3 h hh hne

theorem findHandles_spec (env : Env) (content : String) (log : Log) :
    ∃ new, findHandles env content log = (new, log ++ probesFor new) ∧
      new.map HandleResult.pair = scanPairs content (env.rangeOrder log) ∧
      ∀ h ∈ new, h.Platform ≠ "twitter" → h.Hijackable = false := by
  obtain ⟨new, h1, h2, h3⟩ := rangePatterns_spec env content (env.rangeOrder log) ([], log)
  exact ⟨new, by simpa [findHandles] using h1, h2, h3⟩

theorem notTwitter_eq_of_pairs (a b : List HandleResult)
    (hab : a.map HandleResult.pair = b.map HandleResult.pair)
    (ha : ∀ h ∈ a, h.Platform ≠ "twitter" → h.Hijackable = false)
    (hb : ∀ h ∈ b, h.Platform ≠ "twitter" → h.Hijackable = false) :
    notTwitter a = notTwitter b := by
  induction a generalizing b with
  | nil =>
    cases b with
    | nil => rfl
    | cons y ys => simp at hab
  | cons x xs ih =>
    cases b with
    | nil => simp at hab
    | cons y ys =>
      simp only [List.map_cons, List.cons.injEq] at hab
      have hrec := ih ys hab.2 (fun h hh => ha h (List.mem_cons_of_mem _ hh))
        (fun h hh => hb h (List.mem_cons_of_mem _ hh))
      have hp : x.Platform = y.Platform := congrArg Prod.fst hab.1
      have hh : x.Handle = y.Handle := congrArg Prod.snd hab.1
      unfold notTwitter at hrec ⊢
      by_cases ht : x.Platform = "twitter"
      · have ht2 : y.Platform = "twitter" := hp ▸ ht
        simp [List.filter_cons, ht, ht2, hrec]
      · have ht2 : y.Platform ≠ "twitter" := hp ▸ ht
        have hx := ha x (List.mem_cons_self _ _) ht
        have hy := hb y (List.mem_cons_self _ _) ht2
        have hxy : x = y := by
          cases x; cases y; simp_all
        simp [List.filter_cons, ht, ht2, hrec, hxy]

/-- C2: whatever the network answers, `findHandles` issues exactly the probe requests of
its twitter matches and no other request, every match of another platform has
`Hijackable = false`, and the matches of the other platforms are the same in both runs. -/
theorem findHandles_probe_only_twitter (env : Env)
    (net2 : List String → String → Option Response) (content : String) (log : Log) :
    (findHandles env content log).2 = log ++ probesFor (findHandles env content log).1 ∧
    (findHandles { env with net := net2 } content log).2 =
      log ++ probesFor (findHandles { env with net := net2 } content log).1 ∧
    (∀ h ∈ (findHandles env content log).1, h.Platform ≠ "twitter" → h.Hijackable = false) ∧
    (∀ h ∈ (findHandles { env with net := net2 } content log).1,
      h.Platform ≠ "twitter" → h.Hijackable = false) ∧
    notTwitter (findHandles env content log).1 =
      notTwitter (findHandles { env with net := net2 } content log).1 := by
  obtain ⟨new1, a1, a2, a3⟩ := findHandles_spec env content log
  obtain ⟨new2, b1, b2, b3⟩ := findHandles_spec { env with net := net2 } content log
  rw [a1, b1]
  refine ⟨rfl, rfl, a3, b3, ?_⟩
  exact notTwitter_eq_of_pairs new1 new2 (a2.trans b2.symm) a3 b3

/-- C3: `checkTwitterHandleAvailability` issues one GET, to `"https://x.com/" + handle`,
and returns true exactly when that request returned no error and status 404. -/
theorem checkTwitterHandleAvailability_iff (env : Env) (handle : String) (log : Log) :
    (checkTwitterHandleAvailability env handle log).2 =
      log ++ [{ purpose := Purpose.probe, url := "https://x.com/" ++ handle }] ∧
    ((checkTwitterHandleAvailability env handle log).1 = true ↔
      ∃ resp, env.net log.urls ("https://x.com/" ++ handle) = some resp ∧
        resp.StatusCode = 404) ∧
    ((checkTwitterHandleAvailability env handle log).1 = false ↔
      (env.net log.urls ("https://x.com/" ++ handle) = none ∨
        ∃ resp, env.net log.urls ("https://x.com/" ++ handle) = some resp ∧
          resp.StatusCode ≠ 404)) := by
  unfold checkTwitterHandleAvailability httpGet
  cases h : env.net log.urls ("https://x.com/" ++ handle) with
  | none => simp [h]
  | some resp => by_cases hs : resp.StatusCode = 404 <;> simp [h, hs]

theorem analyze_none_iff (env : Env) (u : String) (log : Log) :
    (analyze env u log).1 = none ↔ mainFetchOk env u log = false := by
  unfold analyze mainFetchOk httpGet
  cases h : env.net log.urls u with
  | none => simp [h]
  | some resp => by_cases hs : resp.StatusCode = 200 <;> simp [h, hs]

theorem analyze_url (env : Env) (u : String) (log : Log) (res : URLResult)
    (h : (analyze env u log).1 = some res) : res.URL = u := by
  unfold analyze httpGet at h
  cases hn : env.net log.urls u with
  | none => simp [hn] at h
  | some resp =>
    by_cases hs : resp.StatusCode = 200
    · simp [hn, hs] at h
      rw [← h]
    · simp [hn, hs] at h

/-- What `fetchAndAnalyze` appends to the output file. -/
theorem fetchAndAnalyze_eq (env : Env) (u sink : String) (log : Log) :
    fetchAndAnalyze env u sink log =
      (sink ++ (match (analyze env u log).1 with
                | some res => env.marshal res ++ ",\n"
                | none => ""), (analyze env u log).2) := by
  unfold fetchAndAnalyze
  rcases h : analyze env u log with ⟨_ | res, log1⟩
  · simp
  · simp [String.append_assoc]

theorem append_ne_self (a b : String) (h : b ≠ "") : a ++ b ≠ a := by
  intro hab
  have hl := congrArg String.length hab
  rw [String.length_append] at hl
  have : b.length = 0 := by omega
  exact h (String.ext (List.length_eq_zero.1 this))

/-- C4: when the main-page fetch fails or answers another status than 200,
`fetchAndAnalyze` leaves the output file unchanged; when it answers 200 it appends one
record, the JSON of a result for this URL followed by `",\n"`; and the file is unchanged
only in the first case. -/
theorem fetchAndAnalyze_writes_iff_ok (env : Env) (u sink : String) (log : Log) :
    (mainFetchOk env u log = false → (fetchAndAnalyze env u sink log).1 = sink) ∧
    (mainFetchOk env u log = true →
      ∃ res, (analyze env u log).1 = some res ∧ res.URL = u ∧
        (fetchAndAnalyze env u sink log).1 = sink ++ env.marshal res ++ ",\n") ∧
    ((fetchAndAnalyze env u sink log).1 = sink ↔ mainFetchOk env u log = false) := by
  rw [fetchAndAnalyze_eq]
  have hiff := analyze_none_iff env u log
  cases h : (analyze env u log).1 with
  | none =>
    have hf : mainFetchOk env u log = false := hiff.1 h
    simp [hf]
  | some res =>
    have hf : mainFetchOk env u log = true := by
      cases hm : mainFetchOk env u log with
      | true => rfl
      | false => rw [hiff.2 hm] at h; cases h
    have hne : sink ++ (env.marshal res ++ ",\n") ≠ sink := by
      apply append_ne_self
      intro h0
      have hl := congrArg String.length h0
      rw [String.length_append] at hl
      have : (",\n" : String).length = 2 := by decide
      simp at hl
      omega
    refine ⟨by simp [hf], fun _ => ⟨res, rfl, analyze_url env u log res h, ?_⟩, ?_⟩
    · simp [String.append_assoc]
    · simp [hf, hne]

theorem runUnits_eq (env : Env) (n : Nat) (rest : List String) (idx : Nat) (sink : String)
    (log : Log) (hn : idx + rest.length = n) :
    (runUnits env n rest idx (sink, log)).1 =
      sink ++ expectedRecords env rest log ++ (if rest = [] then "" else "{}\n]") := by
  induction rest generalizing idx sink log with
  | nil => simp [runUnits, expectedRecords]
  | cons u us ih =>
    simp only [runUnits, unitBody, fetchAndAnalyze_eq]
    have hn2 : (idx + 1) + us.length = n := by simp at hn; omega
    by_cases hus : us = []
    · subst hus
      have hidx : ((idx : Int) == (n : Int) - 1) = true := by
        simp at hn
        simp
        omega
      simp [hidx, runUnits, expectedRecords]
    · have hlen : 0 < us.length := List.length_pos.2 hus
      have hidx : ((idx : Int) == (n : Int) - 1) = false := by
        simp at hn
        simp
        omega
      rw [hidx]
      simp only [Bool.false_eq_true, if_false]
      rw [ih (idx + 1) _ _ hn2]
      simp [hus, expectedRecords, String.append_assoc]

/-- The sequential loop writes the opening bracket, the records in input order and the
closing marker. -/
theorem mainSequential_eq (env : Env) (urls : List String) (hne : urls ≠ []) :
    (mainSequential env urls).1 = "[\n" ++ expectedRecords env urls [] ++ "{}\n]" := by
  unfold mainSequential
  rw [runUnits_eq env urls.length urls 0 "[\n" [] (by simp)]
  simp [hne]

theorem requested_append (p : Purpose) (a b : Log) :
    requested p (a ++ b) = requested p a ++ requested p b := by
  simp [requested]

theorem requested_probesFor (p : Purpose) (l : List HandleResult) :
    requested p (probesFor l) =
      if p = Purpose.probe then (probesFor l).map Request.url else [] := by
  unfold requested probesFor
  induction ofPlatform "twitter" l with
  | nil => simp
  | cons x xs ih =>
    cases p <;> simp_all [List.filter_cons, probeRequest]

theorem scanPairs_platform (content : String) (order : List (String × Re))
    (pr : String × String) (h : pr ∈ scanPairs content order) :
    pr.1 ∈ order.map Prod.fst := by
  simp only [scanPairs, List.mem_flatMap, List.mem_map] at h
  obtain ⟨e, he, m, _, rfl⟩ := h
  exact List.mem_map.2 ⟨e, he, rfl⟩

theorem findHandles_platform (env : Env) (content : String) (log : Log) :
    ∀ h ∈ (findHandles env content log).1,
      h.Platform ∈ (env.rangeOrder log).map Prod.fst := by
  obtain ⟨new, h1, h2, _⟩ := findHandles_spec env content log
  rw [h1]
  intro h hh
  have : h.pair ∈ new.map HandleResult.pair := List.mem_map.2 ⟨h, hh, rfl⟩
  rw [h2] at this
  exact scanPairs_platform content _ _ this

/-- The effect of the sub-page loop: the matches it adds and the requests it issues. -/
theorem fetchPages_spec (env : Env) (base : String) (pages : List String)
    (hs : List HandleResult) (log : Log) :
    ∃ new log1, fetchPages env base pages (hs, log) = (hs ++ new, log1) ∧
      requested Purpose.subPage log1 =
        requested Purpose.subPage log ++ pages.map (fun page => base ++ "/" ++ page) ∧
      requested Purpose.probe log1 =
        requested Purpose.probe log ++ (probesFor new).map Request.url ∧
      requested Purpose.mainPage log1 = requested Purpose.mainPage log ∧
      ∀ h ∈ new, ∃ l, h.Platform ∈ (env.rangeOrder l).map Prod.fst := by
  induction pages generalizing hs log with
  | nil => exact ⟨[], log, by simp [fetchPages, probesFor, ofPlatform]⟩
  | cons page rest ih =>
    have hreq : ∀ p, requested p (log ++ [Request.mk Purpose.subPage (base ++ "/" ++ page)]) =
        requested p log ++ (if p = Purpose.subPage then [base ++ "/" ++ page] else []) := by
      intro p
      cases p <;> simp [requested, List.filter_cons]
    have skip : ∃ new log1, fetchPages env base rest
        (hs, log ++ [Request.mk Purpose.subPage (base ++ "/" ++ page)]) =
          (hs ++ new, log1) ∧
        requested Purpose.subPage log1 = requested Purpose.subPage log ++
          (page :: rest).map (fun page => base ++ "/" ++ page) ∧
        requested Purpose.probe log1 =
          requested Purpose.probe log ++ (probesFor new).map Request.url ∧
        requested Purpose.mainPage log1 = requested Purpose.mainPage log ∧
        ∀ h ∈ new, ∃ l, h.Platform ∈ (env.rangeOrder l).map Prod.fst := by
      obtain ⟨new, log1, e1, e2, e3, e4, e5⟩ := ih hs
        (log ++ [Request.mk Purpose.subPage (base ++ "/" ++ page)])
      refine ⟨new, log1, e1, ?_, ?_, ?_, e5⟩
      · rw [e2, hreq]; simp
      · rw [e3, hreq]; simp
      · rw [e4, hreq]; simp
    simp only [fetchPages, httpGet]
    cases hn : env.net log.urls (base ++ "/" ++ page) with
    | none => simpa using skip
    | some pResp =>
      by_cases hst : pResp.StatusCode = 200
      · simp only [hst, beq_self_eq_true, if_true]
        obtain ⟨new1, a1, _, _⟩ := findHandles_spec env pResp.Body
          (log ++ [Request.mk Purpose.subPage (base ++ "/" ++ page)])
        have hpl := findHandles_platform env pResp.Body
          (log ++ [Request.mk Purpose.subPage (base ++ "/" ++ page)])
        rw [a1] at hpl ⊢
        obtain ⟨new2, log2, e1, e2, e3, e4, e5⟩ := ih (hs ++ new1)
          (log ++ [Request.mk Purpose.subPage (base ++ "/" ++ page)] ++
            probesFor new1)
        refine ⟨new1 ++ new2, log2, ?_, ?_, ?_, ?_, ?_⟩
        · simpa using e1
        · rw [e2, requested_append, requested_probesFor, hreq]; simp
        · rw [e3, requested_append, requested_probesFor, hreq]
          simp [probesFor_append]
        · rw [e4, requested_append, requested_probesFor, hreq]; simp
        · intro h hh
          rcases List.mem_append.1 hh with hh | hh
          · exact ⟨_, hpl h hh⟩
          · exact e5 h hh
      · have hb : (pResp.StatusCode == 200) = false := by simpa using hst
        simp only [hb, Bool.false_eq_true, if_false]
        exact skip

/-- The effect of lines 74-119 when the main-page fetch succeeds. -/
theorem analyze_spec (env : Env) (u : String) (log : Log)
    (hok : mainFetchOk env u log = true) :
    ∃ log1, analyze env u log =
        (some { URL := u, Handles := finalHandles env log1 (accumulated env u log) }, log1) ∧
      requested Purpose.subPage log1 = requested Purpose.subPage log ++
        potentialPages.map
          (fun page => (env.parse u).1 ++ "://" ++ (env.parse u).2 ++ "/" ++ page) ∧
      requested Purpose.probe log1 = requested Purpose.probe log ++
        (probesFor (accumulated env u log)).map Request.url ∧
      requested Purpose.mainPage log1 = requested Purpose.mainPage log ++ [u] ∧
      ∀ h ∈ accumulated env u log, ∃ l, h.Platform ∈ (env.rangeOrder l).map Prod.fst := by
  unfold mainFetchOk at hok
  unfold analyze accumulated httpGet
  cases hn : env.net log.urls u with
  | none => simp [hn] at hok
  | some resp =>
    have hst : resp.StatusCode = 200 := by simpa [hn] using hok
    simp only [hst, bne_self_eq_false, Bool.false_eq_true, if_false]
    unfold gatherHandles
    obtain ⟨new1, a1, _, _⟩ := findHandles_spec env resp.Body
      (log ++ [Request.mk Purpose.mainPage u])
    have hpl := findHandles_platform env resp.Body (log ++ [Request.mk Purpose.mainPage u])
    have hreq : ∀ p, requested p (log ++ [Request.mk Purpose.mainPage u]) =
        requested p log ++ (if p = Purpose.mainPage then [u] else []) := by
      intro p
      cases p <;> simp [requested, List.filter_cons]
    rw [a1] at hpl
    simp only [a1]
    obtain ⟨new2, log2, e1, e2, e3, e4, e5⟩ := fetchPages_spec env
      ((env.parse u).1 ++ "://" ++ (env.parse u).2) potentialPages new1
      (log ++ [Request.mk Purpose.mainPage u] ++ probesFor new1)
    rw [e1]
    refine ⟨log2, rfl, ?_, ?_, ?_, ?_⟩
    · rw [e2, requested_append, requested_probesFor, hreq]; simp
    · rw [e3, requested_append, requested_probesFor, hreq]
      simp [probesFor_append]
    · rw [e4, requested_append, requested_probesFor, hreq]; simp
    · intro h hh
      rcases List.mem_append.1 hh with hh | hh
      · exact ⟨_, hpl h hh⟩
      · exact e5 h hh

theorem fetchAndAnalyze_log (env : Env) (u sink : String) (log : Log) :
    (fetchAndAnalyze env u sink log).2 = (analyze env u log).2 := by
  rw [fetchAndAnalyze_eq]

/-- C8: when `fetchAndAnalyze` gets past the main-page fetch, the sub-pages it requests
are the 16 URLs scheme + "://" + host + "/" + page for the entries of `potentialPages`,
in that order; two input URLs with the same scheme and host get the same list. -/
theorem fetchAndAnalyze_candidate_pages (env : Env) (u1 u2 sink1 sink2 : String)
    (log1 log2 : Log) (h1 : mainFetchOk env u1 log1 = true)
    (h2 : mainFetchOk env u2 log2 = true) (hp : env.parse u1 = env.parse u2) :
    requested Purpose.subPage (fetchAndAnalyze env u1 sink1 log1).2 =
      requested Purpose.subPage log1 ++ potentialPages.map
        (fun page => (env.parse u1).1 ++ "://" ++ (env.parse u1).2 ++ "/" ++ page) ∧
    (potentialPages.map
        (fun page => (env.parse u1).1 ++ "://" ++ (env.parse u1).2 ++ "/" ++ page)).length
      = 16 ∧
    requested Purpose.subPage (fetchAndAnalyze env u2 sink2 log2).2 =
      requested Purpose.subPage log2 ++ potentialPages.map
        (fun page => (env.parse u1).1 ++ "://" ++ (env.parse u1).2 ++ "/" ++ page) := by
  obtain ⟨l1, a1, a2, _⟩ := analyze_spec env u1 log1 h1
  obtain ⟨l2, b1, b2, _⟩ := analyze_spec env u2 log2 h2
  rw [fetchAndAnalyze_log, fetchAndAnalyze_log, a1, b1]
  refine ⟨a2, ?_, ?_⟩
  · simp [potentialPages]
  · rw [hp]; exact b2

theorem fetchAndAnalyze_candidate_pages_witness :
    mainFetchOk (exampleEnv [("https://example.com/a", ""), ("https://example.com/b/c", "")]
      none) "https://example.com/a" [] = true ∧
    mainFetchOk (exampleEnv [("https://example.com/a", ""), ("https://example.com/b/c", "")]
      none) "https://example.com/b/c" [] = true ∧
    requested Purpose.subPage (fetchAndAnalyze
      (exampleEnv [("https://example.com/a", ""), ("https://example.com/b/c", "")] none)
      "https://example.com/b/c" "" []).2 =
      requested Purpose.subPage [] ++ potentialPages.map
        (fun page => "https" ++ "://" ++ "example.com" ++ "/" ++ page) :=
  ⟨by decide, by decide, (fetchAndAnalyze_candidate_pages
    (exampleEnv [("https://example.com/a", ""), ("https://example.com/b/c", "")] none)
    "https://example.com/a" "https://example.com/b/c" "" "" [] []
    (by decide) (by decide) (by decide)).2.2⟩

theorem split_at_separator (c : Char) (l1 l2 r1 r2 : List Char) (h1 : c ∉ l1)
    (h2 : c ∉ l2) (h : l1 ++ c :: r1 = l2 ++ c :: r2) : l1 = l2 ∧ r1 = r2 := by
  induction l1 generalizing l2 with
  | nil =>
    cases l2 with
    | nil => simpa using h
    | cons y ys =>
      simp only [List.nil_append, List.cons_append, List.cons.injEq] at h
      exact absurd (h.1 ▸ List.mem_cons_self _ _) h2
  | cons x xs ih =>
    cases l2 with
    | nil =>
      simp only [List.nil_append, List.cons_append, List.cons.injEq] at h
      exact absurd (h.1 ▸ List.mem_cons_self _ _) h1
    | cons y ys =>
      simp only [List.cons_append, List.cons.injEq] at h
      obtain ⟨e1, e2⟩ := ih ys (fun hm => h1 (List.mem_cons_of_mem _ hm))
        (fun hm => h2 (List.mem_cons_of_mem _ hm)) h.2
      exact ⟨by rw [h.1, e1], e2⟩

/-- The map key determines the (platform, handle) pair when the platforms hold no colon. -/
theorem dedupKey_inj (a b : HandleResult) (ha : ':' ∉ a.Platform.data)
    (hb : ':' ∉ b.Platform.data) (h : dedupKey a = dedupKey b) : a.pair = b.pair := by
  have hd := congrArg String.data h
  simp only [dedupKey, String.data_append] at hd
  rw [List.append_assoc, List.append_assoc] at hd
  obtain ⟨e1, e2⟩ := split_at_separator ':' _ _ _ _ ha hb hd
  simp only [HandleResult.pair, Prod.mk.injEq]
  exact ⟨String.ext e1, String.ext e2⟩

theorem platform_no_colon (p : String) (h : p ∈ regexPatterns.map Prod.fst) :
    ':' ∉ p.data := by
  simp only [regexPatterns, List.map_cons, List.map_nil, List.mem_cons,
    List.mem_singleton, List.not_mem_nil, or_false] at h
  rcases h with rfl | rfl | rfl | rfl | rfl | rfl <;> decide

theorem mapAssign_keys_mem (m : List (String × HandleResult)) (k : String)
    (v : HandleResult) (k1 : String) :
    k1 ∈ (mapAssign m k v).map Prod.fst ↔ k1 = k ∨ k1 ∈ m.map Prod.fst := by
  induction m with
  | nil => simp [mapAssign]
  | cons e rest ih =>
    obtain ⟨ke, ve⟩ := e
    by_cases hk : ke = k
    · subst hk
      simp [mapAssign]
    · simp only [mapAssign, beq_iff_eq, hk, if_false, List.map_cons, List.mem_cons, ih]
      tauto

theorem mapAssign_nodup (m : List (String × HandleResult)) (k : String) (v : HandleResult)
    (h : (m.map Prod.fst).Nodup) : ((mapAssign m k v).map Prod.fst).Nodup := by
  induction m with
  | nil => simp [mapAssign]
  | cons e rest ih =>
    obtain ⟨ke, ve⟩ := e
    simp only [List.map_cons, List.nodup_cons] at h
    by_cases hk : ke = k
    · subst hk
      simpa [mapAssign] using h
    · simp only [mapAssign, beq_iff_eq, hk, if_false, List.map_cons, List.nodup_cons]
      refine ⟨?_, ih h.2⟩
      rw [mapAssign_keys_mem]
      rintro (h1 | h1)
      · exact hk h1
      · exact h.1 h1

theorem mapAssign_mem (m : List (String × HandleResult)) (k : String) (v : HandleResult)
    (e : String × HandleResult) (h : e ∈ mapAssign m k v) : e = (k, v) ∨ e ∈ m := by
  induction m with
  | nil => simpa [mapAssign] using h
  | cons e1 rest ih =>
    obtain ⟨ke, ve⟩ := e1
    by_cases hk : ke = k
    · subst hk
      simp only [mapAssign, beq_self_eq_true, if_true, List.mem_cons] at h
      rcases h with h | h
      · exact Or.inl h
      · exact Or.inr (List.mem_cons_of_mem _ h)
    · simp only [mapAssign, beq_iff_eq, hk, if_false, List.mem_cons] at h
      rcases h with h | h
      · exact Or.inr (h ▸ List.mem_cons_self _ _)
      · rcases ih h with h | h
        · exact Or.inl h
        · exact Or.inr (List.mem_cons_of_mem _ h)

theorem mapAssign_countP (q : HandleResult → Bool) (m : List (String × HandleResult))
    (k : String) (v : HandleResult) :
    ((mapAssign m k v).map Prod.snd).countP q ≤
      (m.map Prod.snd).countP q + (if q v then 1 else 0) := by
  induction m with
  | nil => simp [mapAssign, List.countP_cons]
  | cons e rest ih =>
    obtain ⟨ke, ve⟩ := e
    by_cases hk : ke = k
    · subst hk
      simp only [mapAssign, beq_self_eq_true, if_true, List.map_cons, List.countP_cons]
      split <;> split <;> omega
    · simp only [mapAssign, beq_iff_eq, hk, if_false, List.map_cons, List.countP_cons]
      omega

theorem uniqueHandles_snoc (hs : List HandleResult) (h : HandleResult) :
    uniqueHandles (hs ++ [h]) = mapAssign (uniqueHandles hs) (dedupKey h) h := by
  simp [uniqueHandles, List.foldl_append]

/-- The map after the deduplication loop: its keys are distinct, every entry sits under
its own key and comes from the list, and every element of the list has its key in. -/
theorem uniqueHandles_inv (hs : List HandleResult) :
    ((uniqueHandles hs).map Prod.fst).Nodup ∧
    (∀ e ∈ uniqueHandles hs, e.1 = dedupKey e.2 ∧ e.2 ∈ hs) ∧
    (∀ h ∈ hs, dedupKey h ∈ (uniqueHandles hs).map Prod.fst) := by
  induction hs using List.reverseRecOn with
  | nil => simp [uniqueHandles]
  | append_singleton hs h ih =>
    obtain ⟨i1, i2, i3⟩ := ih
    rw [uniqueHandles_snoc]
    refine ⟨mapAssign_nodup _ _ _ i1, ?_, ?_⟩
    · intro e he
      rcases mapAssign_mem _ _ _ _ he with rfl | he
      · exact ⟨rfl, by simp⟩
      · exact ⟨(i2 e he).1, List.mem_append_left _ (i2 e he).2⟩
    · intro x hx
      rw [mapAssign_keys_mem]
      rcases List.mem_append.1 hx with hx | hx
      · exact Or.inr (i3 x hx)
      · simp only [List.mem_singleton] at hx
        exact Or.inl (by rw [hx])

theorem uniqueHandles_countP (q : HandleResult → Bool) (hs : List HandleResult) :
    ((uniqueHandles hs).map Prod.snd).countP q ≤ hs.countP q := by
  induction hs using List.reverseRecOn with
  | nil => simp [uniqueHandles]
  | append_singleton hs h ih =>
    rw [uniqueHandles_snoc, List.countP_append]
    have := mapAssign_countP q (uniqueHandles hs) (dedupKey h) h
    simp only [List.countP_cons, List.countP_nil]
    omega

theorem exampleEnv_lawful (pages : List (String × String)) (other : Option Response) :
    (exampleEnv pages other).Lawful :=
  ⟨fun _ => List.Perm.refl _, fun _ _ => List.Perm.refl _⟩

theorem accumulated_no_colon (env : Env) (hl : env.Lawful) (u : String) (log : Log)
    (hok : mainFetchOk env u log = true) :
    ∀ h ∈ accumulated env u log, ':' ∉ h.Platform.data := by
  obtain ⟨_, _, _, _, _, hp⟩ := analyze_spec env u log hok
  intro h hh
  obtain ⟨l, hm⟩ := hp h hh
  exact platform_no_colon _ (((hl.rangeOrder_perm l).map Prod.fst).mem_iff.1 hm)

/-- The deduplicated values hold every pair of the list exactly once. -/
theorem uniqueHandles_pairs (hs : List HandleResult)
    (hc : ∀ h ∈ hs, ':' ∉ h.Platform.data) :
    (((uniqueHandles hs).map Prod.snd).map HandleResult.pair).Nodup ∧
    (∀ h ∈ hs, h.pair ∈ ((uniqueHandles hs).map Prod.snd).map HandleResult.pair) ∧
    (∀ e ∈ (uniqueHandles hs).map Prod.snd, e ∈ hs) := by
  obtain ⟨i1, i2, i3⟩ := uniqueHandles_inv hs
  have hkeys : (uniqueHandles hs).map Prod.fst =
      (((uniqueHandles hs).map Prod.snd).map HandleResult.pair).map
        (fun pr => pr.1 ++ ":" ++ pr.2) := by
    simp only [List.map_map]
    apply List.map_congr_left
    intro e he
    simpa [dedupKey, HandleResult.pair] using (i2 e he).1
  refine ⟨?_, ?_, ?_⟩
  · rw [hkeys] at i1
    exact List.Nodup.of_map _ i1
  · intro h hh
    obtain ⟨e, he, hk⟩ := List.mem_map.1 (i3 h hh)
    have hkey : dedupKey e.2 = dedupKey h := by rw [← (i2 e he).1, hk]
    have hpair := dedupKey_inj e.2 h (hc _ (i2 e he).2) (hc h hh) hkey
    exact List.mem_map.2 ⟨e.2, List.mem_map.2 ⟨e, he, rfl⟩, hpair⟩
  · intro v hv
    obtain ⟨e, he, rfl⟩ := List.mem_map.1 hv
    exact (i2 e he).2

theorem countP_eq_one_of_nodup_map {α β : Type} [DecidableEq β] (f : α → β) (l : List α)
    (b : β) (hnd : (l.map f).Nodup) (hm : b ∈ l.map f) :
    l.countP (fun a => decide (f a = b)) = 1 := by
  induction l with
  | nil => simp at hm
  | cons x xs ih =>
    simp only [List.map_cons, List.nodup_cons] at hnd
    by_cases hx : f x = b
    · have hz : xs.countP (fun a => decide (f a = b)) = 0 := by
        rw [List.countP_eq_zero]
        intro a ha hfa
        simp only [decide_eq_true_eq] at hfa
        exact hnd.1 (List.mem_map.2 ⟨a, ha, hfa.trans hx.symm⟩)
      simp [List.countP_cons, hx, hz]
    · have hm2 : b ∈ xs.map f := by
        simp only [List.map_cons, List.mem_cons] at hm
        rcases hm with hm | hm
        · exact absurd hm.symm hx
        · exact hm
      simp [List.countP_cons, hx, ih hnd.2 hm2]

/-- C1: in the record `fetchAndAnalyze` builds, every (platform, handle) pair of the
accumulated matches occurs exactly once among the final `Handles`, no two entries share a
pair, and every entry is one of the accumulated matches. -/
theorem analyze_handles_unique (env : Env) (hl : env.Lawful) (u : String) (log : Log)
    (hok : mainFetchOk env u log = true) :
    ∃ res, (analyze env u log).1 = some res ∧
      (∀ h ∈ accumulated env u log, countPair h res.Handles = 1) ∧
      (res.Handles.map HandleResult.pair).Nodup ∧
      (∀ e ∈ res.Handles, e ∈ accumulated env u log) := by
  obtain ⟨log1, a1, _⟩ := analyze_spec env u log hok
  obtain ⟨p1, p2, p3⟩ := uniqueHandles_pairs (accumulated env u log)
    (accumulated_no_colon env hl u log hok)
  have hperm : (finalHandles env log1 (accumulated env u log)).Perm
      ((uniqueHandles (accumulated env u log)).map Prod.snd) :=
    (hl.arrange_perm log1 _).map Prod.snd
  have hpp := hperm.map HandleResult.pair
  have hnd : ((finalHandles env log1 (accumulated env u log)).map HandleResult.pair).Nodup :=
    hpp.nodup_iff.2 p1
  refine ⟨_, by rw [a1], ?_, hnd, ?_⟩
  · intro h hh
    have hc := countP_eq_one_of_nodup_map HandleResult.pair _ h.pair hnd
      (hpp.mem_iff.2 (p2 h hh))
    rw [← hc]
    unfold countPair
    apply List.countP_congr
    intro e _
    simp [HandleResult.pair]
  · intro e he
    exact p3 e (hperm.mem_iff.1 he)

theorem analyze_handles_unique_witness :
    mainFetchOk (exampleEnv [("https://example.com/p",
        "https://twitter.com/acme https://x.com/acme"),
        ("https://example.com/about", "https://twitter.com/acme")] none)
      "https://example.com/p" [] = true ∧
    ∃ res, (analyze (exampleEnv [("https://example.com/p",
        "https://twitter.com/acme https://x.com/acme"),
        ("https://example.com/about", "https://twitter.com/acme")] none)
      "https://example.com/p" []).1 = some res ∧
      (res.Handles.map HandleResult.pair).Nodup :=
  ⟨by decide,
   (analyze_handles_unique (exampleEnv [("https://example.com/p",
        "https://twitter.com/acme https://x.com/acme"),
        ("https://example.com/about", "https://twitter.com/acme")] none)
      (exampleEnv_lawful _ _) "https://example.com/p" [] (by decide)).imp
    (fun _ h => ⟨h.1, h.2.2.1⟩)⟩

theorem analyze_fail (env : Env) (u : String) (log : Log)
    (hok : mainFetchOk env u log = false) :
    analyze env u log = (none, log ++ [Request.mk Purpose.mainPage u]) ∧
    accumulated env u log = [] := by
  unfold mainFetchOk at hok
  unfold analyze accumulated httpGet
  cases hn : env.net log.urls u with
  | none => simp
  | some resp =>
    have hst : (resp.StatusCode != 200) = true := by
      simpa [hn] using hok
    simp [hst]

/-- C9, the claim fails: a main page that names the same twitter handle twice costs two
probe requests for one twitter entry in the final `Handles`. -/
theorem probes_exceed_unique_twitter :
    (requested Purpose.probe (fetchAndAnalyze (exampleEnv [("https://example.com/p",
      "https://twitter.com/acme https://twitter.com/acme")] none)
      "https://example.com/p" "" []).2).length = 2 ∧
    (ofPlatform "twitter" (resultHandles (exampleEnv [("https://example.com/p",
      "https://twitter.com/acme https://twitter.com/acme")] none)
      "https://example.com/p" [])).length = 1 := by
  decide

/-- C9 as amended: the probe requests `fetchAndAnalyze` issues are those of the twitter
entries of the accumulated matches, one for every occurrence, before deduplication; the
final `Handles` hold at most that many twitter entries. -/
theorem probes_per_twitter_match (env : Env) (hl : env.Lawful) (u sink : String)
    (log : Log) :
    requested Purpose.probe (fetchAndAnalyze env u sink log).2 =
      requested Purpose.probe log ++
        (ofPlatform "twitter" (accumulated env u log)).map (fun h => "https://x.com/" ++ h.Handle) ∧
    (requested Purpose.probe (fetchAndAnalyze env u sink log).2).length =
      (requested Purpose.probe log).length +
        (ofPlatform "twitter" (accumulated env u log)).length ∧
    (ofPlatform "twitter" (resultHandles env u log)).length ≤
      (ofPlatform "twitter" (accumulated env u log)).length := by
  rw [fetchAndAnalyze_log]
  cases hok : mainFetchOk env u log with
  | false =>
    obtain ⟨h1, h2⟩ := analyze_fail env u log hok
    simp [h1, h2, resultHandles, requested, ofPlatform, List.filter_cons]
  | true =>
    obtain ⟨log1, a1, _, a3, _⟩ := analyze_spec env u log hok
    have hurl : (probesFor (accumulated env u log)).map Request.url =
        (ofPlatform "twitter" (accumulated env u log)).map
          (fun h => "https://x.com/" ++ h.Handle) := by
      simp [probesFor, probeRequest]
    rw [hurl] at a3
    simp only [a1, resultHandles]
    refine ⟨a3, by rw [a3]; simp, ?_⟩
    have hperm : (finalHandles env log1 (accumulated env u log)).Perm
        ((uniqueHandles (accumulated env u log)).map Prod.snd) :=
      (hl.arrange_perm log1 _).map Prod.snd
    unfold ofPlatform
    rw [← List.countP_eq_length_filter, ← List.countP_eq_length_filter, hperm.countP_eq]
    exact uniqueHandles_countP _ _

theorem probes_per_twitter_match_witness :
    (requested Purpose.probe (fetchAndAnalyze (exampleEnv [("https://example.com/p",
      "https://twitter.com/acme https://twitter.com/acme")] none)
      "https://example.com/p" "" []).2).length =
      (requested Purpose.probe []).length +
        (ofPlatform "twitter" (accumulated (exampleEnv [("https://example.com/p",
          "https://twitter.com/acme https://twitter.com/acme")] none)
          "https://example.com/p" [])).length :=
  (probes_per_twitter_match (exampleEnv [("https://example.com/p",
      "https://twitter.com/acme https://twitter.com/acme")] none) (exampleEnv_lawful _ _)
      "https://example.com/p" "" []).2.1

theorem init_inv (K n : Nat) : Sched.Inv K n Sched.init := by
  constructor <;> simp [Sched.init]

theorem step_inv (K n : Nat) (s s1 : Sched) (mv : Move) (hi : Sched.Inv K n s)
    (h : step K n s mv = some s1) : Sched.Inv K n s1 := by
  obtain ⟨i1, i2, i3, i4, i5, i6⟩ := hi
  cases mv with
  | acquire =>
    simp only [step] at h
    split at h
    · rename_i hc
      obtain ⟨c1, c2, c3⟩ := hc
      injection h with h
      subst h
      simp only [c1] at i1
      constructor <;> simp_all
      omega
    · cases h
  | start =>
    simp only [step] at h
    split at h
    · rename_i hc
      injection h with h
      subst h
      simp only [hc] at i1
      have hlt := i5 hc
      constructor
      · simp only [List.length_append, List.length_singleton]
        simp
        simp at i1
        omega
      · exact i2
      · simp [i3, List.range_succ]
      · exact hlt
      · intro hc2
        cases hc2
      · show (s.running ++ [s.next] ++ s.done).Perm (s.started ++ [s.next])
        have h1 : (s.running ++ [s.next] ++ s.done).Perm (s.running ++ s.done ++ [s.next]) := by
          rw [List.append_assoc, List.append_assoc]
          exact List.Perm.append_left _ List.perm_append_comm
        exact h1.trans (i6.append_right _)
    · cases h
  | finish idx =>
    simp only [step] at h
    split at h
    · rename_i hc
      obtain ⟨c1, c2⟩ := hc
      injection h with h
      subst h
      have hlen : (s.running.erase idx).length = s.running.length - 1 :=
        List.length_erase_of_mem c1
      have hpos : 0 < s.running.length := List.length_pos_of_mem c1
      constructor
      · show s.sem - 1 = (s.running.erase idx).length + _
        rw [hlen]
        show s.sem - 1 = s.running.length - 1 + (if s.pc = MainPc.spawn then 1 else 0)
        omega
      · show s.sem - 1 ≤ K
        omega
      · exact i3
      · exact i4
      · exact i5
      · show (s.running.erase idx ++ (s.done ++ [idx])).Perm s.started
        have h1 : (s.running.erase idx ++ (s.done ++ [idx])).Perm
            (idx :: s.running.erase idx ++ s.done) := by
          rw [← List.append_assoc]
          exact List.perm_append_comm.trans (by simp)
        have h2 : (idx :: s.running.erase idx ++ s.done).Perm (s.running ++ s.done) :=
          (List.perm_cons_erase c1).symm.append_right _
        exact (h1.trans h2).trans i6
    · cases h

theorem exec_inv (K n : Nat) (moves : List Move) (s s1 : Sched) (hi : Sched.Inv K n s)
    (h : exec K n moves s = some s1) : Sched.Inv K n s1 := by
  induction moves generalizing s with
  | nil =>
    simp only [exec, Option.some.injEq] at h
    exact h ▸ hi
  | cons m ms ih =>
    simp only [exec] at h
    cases hs : step K n s m with
    | none => simp [hs] at h
    | some s2 =>
      rw [hs] at h
      exact ih s2 (step_inv K n s s2 m hi hs) h

theorem stuck_final (K n : Nat) (hK : 1 ≤ K) (s : Sched) (hi : Sched.Inv K n s)
    (hstuck : ∀ mv, step K n s mv = none) : s.next = n ∧ s.running = [] := by
  obtain ⟨i1, i2, i3, i4, i5, i6⟩ := hi
  have hpc : s.pc = MainPc.acquire := by
    cases hp : s.pc with
    | acquire => rfl
    | spawn =>
      have := hstuck Move.start
      simp [step, hp] at this
  have hrun : s.running = [] := by
    cases hr : s.running with
    | nil => rfl
    | cons j js =>
      have := hstuck (Move.finish j)
      simp [step, hr, hpc] at this
      rw [hr] at i1
      simp [hpc] at i1
      omega
  refine ⟨?_, hrun⟩
  by_contra hne
  have := hstuck Move.acquire
  simp only [step, hpc, true_and] at this
  rw [hrun] at i1
  simp [hpc] at i1
  have hlt : s.next < n := by omega
  simp [hlt, i1] at this
  omega

theorem step_fuel (K n : Nat) (s s1 : Sched) (mv : Move) (hi : Sched.Inv K n s)
    (h : step K n s mv = some s1) : s1.fuel n < s.fuel n := by
  obtain ⟨i1, i2, i3, i4, i5, i6⟩ := hi
  cases mv with
  | acquire =>
    simp only [step] at h
    split at h
    · rename_i hc
      injection h with h
      subst h
      simp [Sched.fuel, hc.1]
    · cases h
  | start =>
    simp only [step] at h
    split at h
    · rename_i hc
      injection h with h
      subst h
      have hlt := i5 hc
      simp [Sched.fuel, hc]
      omega
    · cases h
  | finish idx =>
    simp only [step] at h
    split at h
    · rename_i hc
      injection h with h
      subst h
      have hlen : (s.running.erase idx).length = s.running.length - 1 :=
        List.length_erase_of_mem hc.1
      have hpos : 0 < s.running.length := List.length_pos_of_mem hc.1
      simp only [Sched.fuel, hlen]
      omega
    · cases h

/-- C7: with a semaphore of capacity `K ≥ 1`, in every state the scheduler reaches the
number of Running units is at most `K`; the indices started so far are `0, ..., next-1`,
each once, and each is Running or Done; when no move is left every URL has been started
exactly once and is Done; and every move brings the end nearer. -/
theorem scheduler_bound (K n : Nat) (hK : 1 ≤ K) (moves : List Move) (s : Sched)
    (h : exec K n moves Sched.init = some s) :
    s.running.length ≤ K ∧
    s.started = List.range s.next ∧ s.next ≤ n ∧
    (s.running ++ s.done).Perm s.started ∧
    ((∀ mv, step K n s mv = none) →
      s.started = List.range n ∧ s.running = [] ∧ s.done.Perm (List.range n)) ∧
    (∀ mv s1, step K n s mv = some s1 → s1.fuel n < s.fuel n) := by
  have hi := exec_inv K n moves Sched.init s (init_inv K n) h
  refine ⟨?_, hi.started_eq, hi.next_le, hi.perm, ?_, ?_⟩
  · have h1 := hi.sem_eq
    have h2 := hi.sem_le
    omega
  · intro hstuck
    obtain ⟨e1, e2⟩ := stuck_final K n hK s hi hstuck
    have hp := hi.perm
    rw [e2, hi.started_eq, e1] at hp
    exact ⟨by rw [hi.started_eq, e1], e2, by simpa using hp⟩
  · intro mv s1 hs
    exact step_fuel K n s s1 mv hi hs

theorem scheduler_bound_witness :
    exec 1 2 [Move.acquire, Move.start, Move.finish 0, Move.acquire, Move.start]
      Sched.init = some { next := 2, pc := MainPc.acquire, sem := 1, running := [1],
                          done := [0], started := [0, 1] } ∧
    [1].length ≤ 1 :=
  ⟨by decide,
   (scheduler_bound 1 2 (by decide)
      [Move.acquire, Move.start, Move.finish 0, Move.acquire, Move.start]
      { next := 2, pc := MainPc.acquire, sem := 1, running := [1],
        done := [0], started := [0, 1] } (by decide)).1⟩

theorem findAllFrom_sublist (r : Re) (skip : Nat) (s : List Char) :
    (findAllFrom r skip s).Sublist (occurrenceHandles r s) := by
  induction s generalizing skip with
  | nil => cases skip <;> simp [findAllFrom, occurrenceHandles]
  | cons c cs ih =>
    cases skip with
    | succ k =>
      simp only [findAllFrom, occurrenceHandles]
      cases hm : matchPrefix r (c :: cs) with
      | none => exact ih k
      | some nh => exact (ih k).cons _
    | zero =>
      simp only [findAllFrom, occurrenceHandles]
      cases hm : matchPrefix r (c :: cs) with
      | none => exact ih 0
      | some nh => exact (ih _).cons₂ _

theorem findAllFrom_eq (r : Re) (skip : Nat) (s : List Char)
    (h1 : noneWithin r skip s = true) (h2 : nonOverlapping r s = true) :
    findAllFrom r skip s = occurrenceHandles r s := by
  induction s generalizing skip with
  | nil => cases skip <;> simp [findAllFrom, occurrenceHandles]
  | cons c cs ih =>
    simp only [nonOverlapping, Bool.and_eq_true] at h2
    cases skip with
    | succ k =>
      simp only [noneWithin, Bool.and_eq_true, Option.isNone_iff_eq_none] at h1
      simp only [findAllFrom, occurrenceHandles, h1.1]
      exact ih k h1.2 h2.2
    | zero =>
      simp only [findAllFrom, occurrenceHandles]
      cases hm : matchPrefix r (c :: cs) with
      | none =>
        exact ih 0 (by cases cs <;> simp [noneWithin]) h2.2
      | some nh =>
        simp only [hm] at h2
        simp only [List.cons.injEq, true_and]
        exact ih _ h2.1 h2.2

theorem ofPlatform_handles (p : String) (l : List HandleResult) :
    (ofPlatform p l).map HandleResult.Handle =
      ((l.map HandleResult.pair).filter (fun pr => pr.1 == p)).map Prod.snd := by
  induction l with
  | nil => rfl
  | cons x xs ih =>
    unfold ofPlatform at ih ⊢
    by_cases hx : x.Platform = p
    · simp [List.filter_cons, HandleResult.pair, hx, ih]
    · simp [List.filter_cons, HandleResult.pair, hx, ih]

theorem scanPairs_filter (content : String) (order : List (String × Re)) (p : String) :
    ((scanPairs content order).filter (fun pr => pr.1 == p)).map Prod.snd =
      (order.filter (fun e => e.1 == p)).flatMap
        (fun e => findAllStringSubmatch e.2 content) := by
  induction order with
  | nil => rfl
  | cons e rest ih =>
    unfold scanPairs at ih ⊢
    simp only [List.flatMap_cons, List.filter_append, List.map_append, ih]
    by_cases he : e.1 = p
    · simp [List.filter_cons, he, List.filter_map, Function.comp_def]
    · simp [List.filter_cons, he, List.filter_map, Function.comp_def]

theorem regexPatterns_filter (p : String) (re : Re) (hp : (p, re) ∈ regexPatterns) :
    regexPatterns.filter (fun e => e.1 == p) = [(p, re)] := by
  simp only [regexPatterns, List.mem_cons, Prod.mk.injEq, List.mem_singleton,
    List.not_mem_nil, or_false] at hp
  rcases hp with ⟨rfl, rfl⟩ | ⟨rfl, rfl⟩ | ⟨rfl, rfl⟩ | ⟨rfl, rfl⟩ | ⟨rfl, rfl⟩ | ⟨rfl, rfl⟩ <;>
    rfl

/-- C5, the claim fails: a text with two occurrences of the facebook URL shape, with the
distinct handles `ahttps` and `b`, the second starting inside the first, yields one
facebook match. -/
theorem overlapping_occurrences_one_match :
    (regexPatterns.lookup "facebook").map
      (fun re => occurrenceHandles re "https://facebook.com/ahttps://facebook.com/b".toList)
      = some ["ahttps", "b"] ∧
    (ofPlatform "facebook" (findHandles (exampleEnv [] none)
      "https://facebook.com/ahttps://facebook.com/b" []).1).length = 1 := by
  decide

/-- C5 as amended: for each platform of the pattern map, the matches `findHandles` returns
for it are those of the left-to-right scan of the text, in text order; there are at most
as many as occurrences of the URL shape, exactly as many when no occurrence starts inside
another one, and none when the shape does not occur. -/
theorem findHandles_matches_per_platform (env : Env) (hl : env.Lawful) (content : String)
    (log : Log) (p : String) (re : Re) (hp : (p, re) ∈ regexPatterns) :
    (ofPlatform p (findHandles env content log).1).map HandleResult.Handle =
      findAllStringSubmatch re content ∧
    (ofPlatform p (findHandles env content log).1).length ≤
      (occurrenceHandles re content.toList).length ∧
    (nonOverlapping re content.toList = true →
      (ofPlatform p (findHandles env content log).1).length =
        (occurrenceHandles re content.toList).length) ∧
    (occurrenceHandles re content.toList = [] →
      ofPlatform p (findHandles env content log).1 = []) := by
  obtain ⟨new, h1, h2, _⟩ := findHandles_spec env content log
  have hfil : (env.rangeOrder log).filter (fun e => e.1 == p) = [(p, re)] := by
    have hperm := (hl.rangeOrder_perm log).filter (fun e => e.1 == p)
    rw [regexPatterns_filter p re hp] at hperm
    exact List.perm_singleton.1 hperm
  have hmain : (ofPlatform p new).map HandleResult.Handle =
      findAllStringSubmatch re content := by
    rw [ofPlatform_handles, h2, scanPairs_filter, hfil]
    simp
  have hlen : (ofPlatform p new).length = (findAllStringSubmatch re content).length := by
    rw [← hmain, List.length_map]
  have hsub := findAllFrom_sublist re 0 content.toList
  rw [h1]
  refine ⟨hmain, ?_, ?_, ?_⟩
  · rw [hlen]
    exact hsub.length_le
  · intro hno
    rw [hlen]
    unfold findAllStringSubmatch
    rw [findAllFrom_eq re 0 content.toList (by cases content.toList <;> simp [noneWithin]) hno]
  · intro hnone
    have h0 : (ofPlatform p new).length = 0 := by
      have := hsub.length_le
      rw [hnone] at this
      rw [hlen]
      unfold findAllStringSubmatch
      simpa using this
    exact List.length_eq_zero.1 h0

theorem findHandles_matches_per_platform_witness :
    (ofPlatform "linkedin" (findHandles (exampleEnv [] none)
      "see https://www.linkedin.com/in/ann and http://linkedin.com/in/bob-2" []).1).map
        HandleResult.Handle = ["ann", "bob-2"] :=
  (findHandles_matches_per_platform (exampleEnv [] none) (exampleEnv_lawful _ _)
    "see https://www.linkedin.com/in/ann and http://linkedin.com/in/bob-2" [] "linkedin"
    (Re.cat (urlHead ++ [Re.lit "linkedin.com/in/", handleGroup]))
    (List.mem_cons_of_mem _ (List.mem_cons_self _ _))).1.trans (by decide)

theorem scanUrls_blank (lines urls : List String) (hblank : ∀ l ∈ lines, trimSpace l = "") :
    scanUrls lines urls = urls := by
  induction lines generalizing urls with
  | nil => rfl
  | cons text rest ih =>
    have h1 : trimSpace text = "" := hblank text (List.mem_cons_self _ _)
    simp only [scanUrls, h1, bne_self_eq_false, Bool.false_eq_true, if_false]
    exact ih urls (fun l hl => hblank l (List.mem_cons_of_mem _ hl))

/-- C10: for an input file with no non-blank line the URL list is empty, no unit of work
ever starts, whatever the capacity of the semaphore, and the output file holds `"[\n"`
alone in every state `main` reaches: the closing marker is not written and the file does
not end with `]`. -/
theorem main_empty_list (env : Env) (K : Nat) (lines : List String)
    (hblank : ∀ l ∈ lines, trimSpace l = "") :
    scanUrls lines [] = [] ∧
    (∀ mv, step K (scanUrls lines []).length Sched.init mv = none) ∧
    (∀ moves s, execMain env K (scanUrls lines []) moves MainState.init = some s →
      s.sink = "[\n") ∧
    (mainSequential env (scanUrls lines [])).1 = "[\n" ∧
    (mainSequential env (scanUrls lines [])).1 ≠
      "[\n" ++ expectedRecords env (scanUrls lines []) [] ++ "{}\n]" ∧
    (mainSequential env (scanUrls lines [])).1.back ≠ ']' := by
  rw [scanUrls_blank lines [] hblank]
  have hstep : ∀ mv, step K ([] : List String).length Sched.init mv = none := by
    intro mv
    cases mv <;> simp [step, Sched.init]
  refine ⟨rfl, hstep, ?_, rfl, ?_, ?_⟩
  · intro moves s h
    cases moves with
    | nil =>
      simp only [execMain, Option.some.injEq] at h
      rw [← h]
      rfl
    | cons m ms =>
      simp only [execMain, stepMain, MainState.init, hstep m] at h
      cases h
  · show ("[\n" : String) ≠ "[\n" ++ "" ++ "{}\n]"
    decide
  · show ("[\n" : String).back ≠ ']'
    decide

theorem main_empty_list_witness :
    (∀ l ∈ ["", "  \t", "\r"], trimSpace l = "") ∧
    (mainSequential (exampleEnv [] none) (scanUrls ["", "  \t", "\r"] [])).1 = "[\n" :=
  ⟨by decide,
   (main_empty_list (exampleEnv [] none) 5 ["", "  \t", "\r"] (by decide)).2.2.2.1⟩

/-- With one slot the units of work run one at a time in input order: the units Done are
`0, ..., k-1` in that order, and the only unit that can be Running is `k`. -/
theorem one_slot_in_order (n : Nat) (moves : List Move) (s : Sched)
    (h : exec 1 n moves Sched.init = some s) :
    s.done = List.range s.done.length ∧
    (s.running = [] ∨ s.running = [s.done.length]) ∧
    s.done.length + s.running.length = s.next := by
  induction moves using List.reverseRecOn generalizing s with
  | nil =>
    simp only [exec, Option.some.injEq] at h
    subst h
    simp [Sched.init]
  | append_singleton ms m ih =>
    have hsplit : ∀ (l : List Move) (a : Sched), exec 1 n (l ++ [m]) a =
        (exec 1 n l a).bind (fun b => step 1 n b m) := by
      intro l
      induction l with
      | nil =>
        intro a
        simp only [List.nil_append, exec, Option.some_bind]
        cases step 1 n a m <;> rfl
      | cons x xs ihx =>
        intro a
        simp only [List.cons_append, exec]
        cases step 1 n a x with
        | none => rfl
        | some b => exact ihx b
    rw [hsplit] at h
    cases hm : exec 1 n ms Sched.init with
    | none => simp [hm] at h
    | some s0 =>
      rw [hm] at h
      simp only [Option.some_bind] at h
      obtain ⟨j1, j2, j3⟩ := ih s0 hm
      have hi := exec_inv 1 n ms Sched.init s0 (init_inv 1 n) hm
      obtain ⟨i1, i2, _, _, _, _⟩ := hi
      cases m with
      | acquire =>
        simp only [step] at h
        split at h
        · injection h with h
          subst h
          exact ⟨j1, j2, j3⟩
        · cases h
      | start =>
        simp only [step] at h
        split at h
        · rename_i hc
          injection h with h
          subst h
          simp only [hc, if_true] at i1
          have hr : s0.running = [] := List.length_eq_zero.1 (by omega)
          rw [hr] at j3
          simp only [List.length_nil, Nat.add_zero] at j3
          refine ⟨j1, Or.inr ?_, ?_⟩
          · show s0.running ++ [s0.next] = [s0.done.length]
            rw [hr, j3]; rfl
          · show s0.done.length + (s0.running ++ [s0.next]).length = s0.next + 1
            rw [hr, j3]; rfl
        · cases h
      | finish idx =>
        simp only [step] at h
        split at h
        · rename_i hc
          injection h with h
          subst h
          rcases j2 with j2 | j2
          · rw [j2] at hc
            simp at hc
          · have hidx : idx = s0.done.length := by
              have := hc.1
              rw [j2] at this
              simpa using this
            subst hidx
            rw [j2] at j3
            refine ⟨?_, Or.inl ?_, ?_⟩
            · show s0.done ++ [s0.done.length] = List.range (s0.done ++ [s0.done.length]).length
              rw [List.length_append, List.length_singleton, List.range_succ, ← j1]
            · show s0.running.erase s0.done.length = []
              rw [j2]; simp
            · show (s0.done ++ [s0.done.length]).length +
                (s0.running.erase s0.done.length).length = s0.next
              rw [j2]
              simpa using j3
        · cases h

theorem execMain_snoc (env : Env) (K : Nat) (urls : List String) (m : Move)
    (l : List Move) (a : MainState) :
    execMain env K urls (l ++ [m]) a =
      (execMain env K urls l a).bind (fun b => stepMain env K urls b m) := by
  induction l generalizing a with
  | nil =>
    simp only [List.nil_append, execMain, Option.some_bind]
    cases stepMain env K urls a m <;> rfl
  | cons x xs ih =>
    simp only [List.cons_append, execMain]
    cases stepMain env K urls a x with
    | none => rfl
    | some b => exact ih b

theorem stepMain_sched (env : Env) (K : Nat) (urls : List String) (s s1 : MainState)
    (mv : Move) (h : stepMain env K urls s mv = some s1) :
    step K urls.length s.sched mv = some s1.sched := by
  unfold stepMain at h
  cases hs : step K urls.length s.sched mv with
  | none => simp [hs] at h
  | some sched1 =>
    simp only [hs] at h
    cases mv with
    | acquire => simp only [Option.some.injEq] at h; rw [← h]
    | start => simp only [Option.some.injEq] at h; rw [← h]
    | finish idx =>
      cases hu : urls[idx]? with
      | none => simp [hu] at h
      | some u => simp only [hu, Option.some.injEq] at h; rw [← h]

theorem execMain_sched (env : Env) (K : Nat) (urls : List String) (moves : List Move)
    (s s1 : MainState) (h : execMain env K urls moves s = some s1) :
    exec K urls.length moves s.sched = some s1.sched := by
  induction moves generalizing s with
  | nil =>
    simp only [execMain, Option.some.injEq] at h
    simp [exec, h]
  | cons m ms ih =>
    simp only [execMain] at h
    cases hs : stepMain env K urls s m with
    | none => simp [hs] at h
    | some s2 =>
      rw [hs] at h
      simp only [exec, stepMain_sched env K urls s s2 m hs]
      exact ih s2 h

theorem runUnits_snoc (env : Env) (n : Nat) (l : List String) (u : String) (idx : Nat)
    (st : String × Log) :
    runUnits env n (l ++ [u]) idx st =
      unitBody env n u (idx + l.length) (runUnits env n l idx st) := by
  induction l generalizing idx st with
  | nil => simp [runUnits]
  | cons x xs ih =>
    have hadd : idx + 1 + xs.length = idx + (xs.length + 1) := by omega
    show runUnits env n (xs ++ [u]) (idx + 1) (unitBody env n x idx st) =
      unitBody env n u (idx + (xs.length + 1))
        (runUnits env n xs (idx + 1) (unitBody env n x idx st))
    rw [ih, hadd]

/-- With one slot, the output file and the request log are those of the sequential loop
over the URLs of the units that are Done. -/
theorem one_slot_state (env : Env) (urls : List String) (moves : List Move) (s : MainState)
    (h : execMain env 1 urls moves MainState.init = some s) :
    (s.sink, s.log) =
      runUnits env urls.length (urls.take s.sched.done.length) 0 ("[\n", []) := by
  induction moves using List.reverseRecOn generalizing s with
  | nil =>
    simp only [execMain, Option.some.injEq] at h
    subst h
    simp [MainState.init, Sched.init, runUnits]
  | append_singleton ms m ih =>
    rw [execMain_snoc] at h
    cases hm : execMain env 1 urls ms MainState.init with
    | none => simp [hm] at h
    | some s0 =>
      rw [hm] at h
      simp only [Option.some_bind] at h
      have ih0 := ih s0 hm
      have hord := one_slot_in_order urls.length ms s0.sched
        (execMain_sched env 1 urls ms MainState.init s0 hm)
      have hstep := stepMain_sched env 1 urls s0 s m h
      unfold stepMain at h
      rw [hstep] at h
      cases m with
      | acquire =>
        simp only [Option.some.injEq] at h
        simp only [step] at hstep
        split at hstep
        · injection hstep with hstep
          rw [← h, ← hstep]
          exact ih0
        · cases hstep
      | start =>
        simp only [Option.some.injEq] at h
        simp only [step] at hstep
        split at hstep
        · injection hstep with hstep
          rw [← h, ← hstep]
          exact ih0
        · cases hstep
      | finish idx =>
        cases hu : urls[idx]? with
        | none => simp [hu] at h
        | some u =>
          simp only [hu, Option.some.injEq] at h
          simp only [step] at hstep
          split at hstep
          · rename_i hc
            injection hstep with hstep
            have hidx : idx = s0.sched.done.length := by
              rcases hord.2.1 with hr | hr
              · rw [hr] at hc; simp at hc
              · have := hc.1
                rw [hr] at this
                simpa using this
            subst hidx
            have hlt : s0.sched.done.length < urls.length := by
              by_contra hge
              rw [List.getElem?_eq_none (by omega)] at hu
              cases hu
            have htake : urls.take (s0.sched.done.length + 1) =
                urls.take s0.sched.done.length ++ [u] := by
              rw [List.take_succ, hu]
              rfl
            have hdone : s.sched.done.length = s0.sched.done.length + 1 := by
              rw [← hstep]
              simp
            rw [hdone, htake, runUnits_snoc, ← ih0, ← h]
            simp [List.length_take, Nat.min_eq_left (Nat.le_of_lt hlt)]
          · cases hstep

/-- C6: with one slot and a non-empty URL list, when the loop of `main` is over and no
unit of work is running, the output file holds `"[\n"`, then for each URL whose main-page
fetch succeeded its record followed by `",\n"`, in input order, then the closing
`"{}\n]"`, once. -/
theorem main_one_slot_output (env : Env) (urls : List String) (hne : urls ≠ [])
    (moves : List Move) (s : MainState)
    (h : execMain env 1 urls moves MainState.init = some s)
    (hover : s.sched.next = urls.length) (hidle : s.sched.running = []) :
    s.sink = "[\n" ++ expectedRecords env urls [] ++ "{}\n]" := by
  have hst := one_slot_state env urls moves s h
  have hi := exec_inv 1 urls.length moves Sched.init s.sched (init_inv 1 urls.length)
    (execMain_sched env 1 urls moves MainState.init s h)
  have hlen : s.sched.done.length = urls.length := by
    have hp := hi.perm.length_eq
    rw [hidle, hi.started_eq, hover] at hp
    simpa using hp
  rw [hlen, List.take_length] at hst
  have hsink : s.sink = (mainSequential env urls).1 := by
    unfold mainSequential
    rw [← hst]
  rw [hsink, mainSequential_eq env urls hne]

theorem main_one_slot_output_witness :
    execMain (exampleEnv [("https://example.com/p", "https://tiktok.com/@ann")] none) 1
      ["https://example.com/q", "https://example.com/p"]
      [Move.acquire, Move.start, Move.finish 0, Move.acquire, Move.start, Move.finish 1]
      MainState.init =
      some { sched := { next := 2, pc := MainPc.acquire, sem := 0, running := [],
                        done := [0, 1], started := [0, 1] },
             sink := "[\n\x7b\"url\": \"https://example.com/p\", \"handles\": " ++
               "[tiktok/ann/false]\x7d,\n{}\n]",
             log := [Request.mk Purpose.mainPage "https://example.com/q",
                     Request.mk Purpose.mainPage "https://example.com/p"] ++
               potentialPages.map
                 (fun page => Request.mk Purpose.subPage ("https://example.com/" ++ page)) } ∧
    "[\n\x7b\"url\": \"https://example.com/p\", \"handles\": [tiktok/ann/false]\x7d,\n{}\n]" =
      "[\n" ++ expectedRecords
        (exampleEnv [("https://example.com/p", "https://tiktok.com/@ann")] none)
        ["https://example.com/q", "https://example.com/p"] [] ++ "{}\n]" :=
  ⟨by decide,
   main_one_slot_output (exampleEnv [("https://example.com/p", "https://tiktok.com/@ann")] none)
    ["https://example.com/q", "https://example.com/p"] (by decide)
    [Move.acquire, Move.start, Move.finish 0, Move.acquire, Move.start, Move.finish 1]
    { sched := { next := 2, pc := MainPc.acquire, sem := 0, running := [],
                 done := [0, 1], started := [0, 1] },
      sink := "[\n\x7b\"url\": \"https://example.com/p\", \"handles\": " ++
        "[tiktok/ann/false]\x7d,\n{}\n]",
      log := [Request.mk Purpose.mainPage "https://example.com/q",
              Request.mk Purpose.mainPage "https://example.com/p"] ++
        potentialPages.map
          (fun page => Request.mk Purpose.subPage ("https://example.com/" ++ page)) }
    (by decide) rfl rfl⟩

end Jake
